import Mathlib

/-
Verification of the grid path-finding repository (APCSP_pathfinder.py and
pathfinder.py).  Both Python files are embedded shallowly.  All costs that the
Python code stores in floats are exact real numbers of the shape
a + b*sqrt 2 + sqrt m (each move costs 1 or sqrt 2, and every heuristic value
is the square root of an integer squared distance), so the embedding
represents them exactly and decides every comparison the code makes with an
exact integer sign computation, proved correct against the real numbers.
-/

namespace Pathfinding

/-- A grid cell, the (row, column) integer pair the Python code passes around
as a tuple. -/
abbrev Cell := ℤ × ℤ

/-- Squared Euclidean distance between two cells; `math.dist a b` is its
square root. -/
def sqDist (a b : Cell) : ℕ := ((a.1 - b.1) ^ 2 + (a.2 - b.2) ^ 2).toNat

/-- Real Euclidean distance between two cells, the exact value of
`math.dist`. -/
noncomputable def euclid (a b : Cell) : ℝ := Real.sqrt (sqDist a b)

/-- An exact value a + b·√2.  Every accumulated path cost arising in either
variant has this form because each 8-neighbour step has length 1 or √2. -/
structure Q2 where
  a : ℤ
  b : ℤ
deriving DecidableEq, Repr

namespace Q2

/-- The real number represented by a `Q2` value. -/
noncomputable def toReal (x : Q2) : ℝ := x.a + x.b * Real.sqrt 2

def zero : Q2 := ⟨0, 0⟩

def one : Q2 := ⟨1, 0⟩

def add (x y : Q2) : Q2 := ⟨x.a + y.a, x.b + y.b⟩

def sub (x y : Q2) : Q2 := ⟨x.a - y.a, x.b - y.b⟩

def mul (x y : Q2) : Q2 := ⟨x.a * y.a + 2 * x.b * y.b, x.a * y.b + x.b * y.a⟩

def scale (n : ℤ) (x : Q2) : Q2 := ⟨n * x.a, n * x.b⟩

/-- Exact sign of a + b·√2, computed by integer arithmetic only. -/
def sgn (x : Q2) : ℤ :=
  if x.b = 0 then Int.sign x.a
  else if x.a = 0 then Int.sign x.b
  else if 0 < x.a then
    (if 0 < x.b then 1 else Int.sign (x.a ^ 2 - 2 * x.b ^ 2))
  else
    (if x.b < 0 then -1 else - Int.sign (x.a ^ 2 - 2 * x.b ^ 2))

theorem sqrt_two_pos : 0 < Real.sqrt 2 := Real.sqrt_pos.mpr (by norm_num)

theorem sq_sqrt_two : Real.sqrt 2 ^ 2 = 2 := Real.sq_sqrt (by norm_num)

theorem toReal_zero : Q2.zero.toReal = 0 := by simp [toReal, zero]

theorem toReal_one : Q2.one.toReal = 1 := by simp [toReal, one]

theorem toReal_add (x y : Q2) : (add x y).toReal = x.toReal + y.toReal := by
  simp only [toReal, add]; push_cast; ring

theorem toReal_sub (x y : Q2) : (sub x y).toReal = x.toReal - y.toReal := by
  simp only [toReal, sub]; push_cast; ring

theorem toReal_mul (x y : Q2) : (mul x y).toReal = x.toReal * y.toReal := by
  simp only [toReal, mul]
  push_cast
  linear_combination (-(x.b : ℝ) * (y.b : ℝ)) * sq_sqrt_two

theorem toReal_scale (n : ℤ) (x : Q2) : (scale n x).toReal = n * x.toReal := by
  simp only [toReal, scale]; push_cast; ring

/-- The statement that the integer s is the sign of the real number x. -/
def IsSign (s : ℤ) (x : ℝ) : Prop :=
  (s = 1 ∧ 0 < x) ∨ (s = 0 ∧ x = 0) ∨ (s = -1 ∧ x < 0)

theorem IsSign.pos_iff {s : ℤ} {x : ℝ} (h : IsSign s x) : s = 1 ↔ 0 < x := by
  rcases h with ⟨h1, h2⟩ | ⟨h1, h2⟩ | ⟨h1, h2⟩ <;> constructor <;> intro hh <;>
    simp_all <;> linarith

theorem IsSign.neg_iff {s : ℤ} {x : ℝ} (h : IsSign s x) : s = -1 ↔ x < 0 := by
  rcases h with ⟨h1, h2⟩ | ⟨h1, h2⟩ | ⟨h1, h2⟩ <;> constructor <;> intro hh <;>
    simp_all <;> linarith

theorem IsSign.zero_iff {s : ℤ} {x : ℝ} (h : IsSign s x) : s = 0 ↔ x = 0 := by
  rcases h with ⟨h1, h2⟩ | ⟨h1, h2⟩ | ⟨h1, h2⟩ <;> constructor <;> intro hh <;>
    simp_all <;> linarith

theorem isSign_intSign (n : ℤ) : IsSign (Int.sign n) (n : ℝ) := by
  rcases lt_trichotomy n 0 with h | h | h
  · right; right
    exact ⟨Int.sign_eq_neg_one_iff_neg.mpr h, by exact_mod_cast h⟩
  · right; left; simp [h]
  · left
    exact ⟨Int.sign_eq_one_iff_pos.mpr h, by exact_mod_cast h⟩

theorem sq_lt_sq_iff_left {x y : ℝ} (hx : 0 ≤ x) (hy : 0 ≤ y) :
    x ^ 2 < y ^ 2 ↔ x < y := by
  constructor
  · intro h; exact lt_of_pow_lt_pow_left 2 hy h
  · intro h
    have := mul_self_lt_mul_self hx h
    nlinarith

/-- Negating a real number negates its sign. -/
theorem IsSign.neg {s : ℤ} {x : ℝ} (h : IsSign s x) : IsSign (-s) (-x) := by
  rcases h with ⟨h1, h2⟩ | ⟨h1, h2⟩ | ⟨h1, h2⟩
  · right; right; exact ⟨by rw [h1], by linarith⟩
  · right; left; exact ⟨by rw [h1]; ring, by linarith⟩
  · left; exact ⟨by rw [h1]; ring, by linarith⟩

theorem pos_iff_of_pos_neg {a b : ℝ} (ha : 0 < a) (hb : b < 0) :
    (0 < a + b * Real.sqrt 2) ↔ 2 * b ^ 2 < a ^ 2 := by
  have hr := sqrt_two_pos
  have hr2 := sq_sqrt_two
  have hnb : 0 ≤ -b * Real.sqrt 2 := by nlinarith
  have hiff : (-b * Real.sqrt 2) ^ 2 < a ^ 2 ↔ -b * Real.sqrt 2 < a :=
    sq_lt_sq_iff_left hnb ha.le
  constructor
  · intro h
    have h2 := hiff.mpr (by linarith)
    nlinarith
  · intro h
    have h2 : (-b * Real.sqrt 2) ^ 2 < a ^ 2 := by nlinarith
    have := hiff.mp h2
    linarith

theorem neg_iff_of_pos_neg {a b : ℝ} (ha : 0 < a) (hb : b < 0) :
    (a + b * Real.sqrt 2 < 0) ↔ a ^ 2 < 2 * b ^ 2 := by
  have hr := sqrt_two_pos
  have hr2 := sq_sqrt_two
  have hnb : 0 ≤ -b * Real.sqrt 2 := by nlinarith
  have hiff : a ^ 2 < (-b * Real.sqrt 2) ^ 2 ↔ a < -b * Real.sqrt 2 :=
    sq_lt_sq_iff_left ha.le hnb
  constructor
  · intro h
    have h2 := hiff.mpr (by linarith)
    nlinarith
  · intro h
    have h2 : a ^ 2 < (-b * Real.sqrt 2) ^ 2 := by nlinarith
    have := hiff.mp h2
    linarith

/-- For a > 0 and b < 0 the sign of a + b·√2 is the sign of a² - 2b². -/
theorem isSign_of_pos_neg {a b : ℤ} (ha : 0 < a) (hb : b < 0) :
    IsSign (Int.sign (a ^ 2 - 2 * b ^ 2)) ((a : ℝ) + b * Real.sqrt 2) := by
  have har : (0 : ℝ) < a := by exact_mod_cast ha
  have hbr : (b : ℝ) < 0 := by exact_mod_cast hb
  rcases isSign_intSign (a ^ 2 - 2 * b ^ 2) with ⟨h1, h2⟩ | ⟨h1, h2⟩ | ⟨h1, h2⟩
  · left
    refine ⟨h1, (pos_iff_of_pos_neg har hbr).mpr ?_⟩
    push_cast at h2
    linarith
  · right; left
    refine ⟨h1, ?_⟩
    push_cast at h2
    rcases lt_trichotomy ((a : ℝ) + b * Real.sqrt 2) 0 with hlt | heq | hgt
    · have := (neg_iff_of_pos_neg har hbr).mp hlt
      linarith
    · exact heq
    · have := (pos_iff_of_pos_neg har hbr).mp hgt
      linarith
  · right; right
    refine ⟨h1, ?_⟩
    push_cast at h2
    exact (neg_iff_of_pos_neg har hbr).mpr (by linarith)

/-- Correctness of the exact sign of a + b·√2. -/
theorem isSign_sgn (x : Q2) : IsSign x.sgn x.toReal := by
  obtain ⟨a, b⟩ := x
  simp only [sgn, toReal]
  have hr : 0 < Real.sqrt 2 := sqrt_two_pos
  split_ifs with hb ha hapos hbpos hbneg
  · subst hb
    have := isSign_intSign a
    simpa using this
  · subst ha
    rcases isSign_intSign b with ⟨h1, h2⟩ | ⟨h1, h2⟩ | ⟨h1, h2⟩
    · left
      refine ⟨h1, ?_⟩
      push_cast
      nlinarith
    · right; left
      refine ⟨h1, by push_cast; simp [h2]⟩
    · right; right
      refine ⟨h1, ?_⟩
      push_cast
      nlinarith
  · -- a > 0, b > 0
    left
    refine ⟨rfl, ?_⟩
    have h1 : (0 : ℝ) < a := by exact_mod_cast hapos
    have h2 : (0 : ℝ) < b := by exact_mod_cast hbpos
    positivity
  · -- a > 0, b < 0
    have hbneg2 : b < 0 := lt_of_le_of_ne (not_lt.mp hbpos) hb
    exact isSign_of_pos_neg hapos hbneg2
  · -- a < 0, b < 0
    right; right
    have haneg : a < 0 := lt_of_le_of_ne (not_lt.mp hapos) ha
    refine ⟨rfl, ?_⟩
    have h1 : (a : ℝ) < 0 := by exact_mod_cast haneg
    have h2 : (b : ℝ) < 0 := by exact_mod_cast hbneg
    nlinarith [hr]
  · -- a < 0, b > 0
    have haneg : a < 0 := lt_of_le_of_ne (not_lt.mp hapos) ha
    have hbpos2 : 0 < b := lt_of_le_of_ne (not_lt.mp hbneg) (Ne.symm hb)
    have base := isSign_of_pos_neg (a := -a) (b := -b) (by omega) (by omega)
    have heq : ((-a : ℤ) : ℝ) + ((-b : ℤ) : ℝ) * Real.sqrt 2 =
        -(((a : ℤ) : ℝ) + ((b : ℤ) : ℝ) * Real.sqrt 2) := by push_cast; ring
    rw [heq] at base
    have base2 := base.neg
    rw [neg_neg] at base2
    have hsgn : (-Int.sign ((-a) ^ 2 - 2 * (-b) ^ 2)) =
        -Int.sign (a ^ 2 - 2 * b ^ 2) := by ring_nf
    rw [hsgn] at base2
    exact base2

theorem IsSign.mem {s : ℤ} {x : ℝ} (h : IsSign s x) : s = 1 ∨ s = 0 ∨ s = -1 := by
  rcases h with ⟨h1, _⟩ | ⟨h1, _⟩ | ⟨h1, _⟩
  · exact Or.inl h1
  · exact Or.inr (Or.inl h1)
  · exact Or.inr (Or.inr h1)

theorem IsSign.add_same {s : ℤ} {x y : ℝ} (hx : IsSign s x) (hy : IsSign s y) :
    IsSign s (x + y) := by
  rcases hx with ⟨h1, h2⟩ | ⟨h1, h2⟩ | ⟨h1, h2⟩ <;>
    rcases hy with ⟨g1, g2⟩ | ⟨g1, g2⟩ | ⟨g1, g2⟩ <;>
    first
      | (left; exact ⟨h1, by linarith⟩)
      | (right; left; exact ⟨h1, by linarith⟩)
      | (right; right; exact ⟨h1, by linarith⟩)
      | (exfalso; omega)

theorem IsSign.mul_right_pos {s : ℤ} {x c : ℝ} (h : IsSign s x) (hc : 0 < c) :
    IsSign s (x * c) := by
  rcases h with ⟨h1, h2⟩ | ⟨h1, h2⟩ | ⟨h1, h2⟩
  · left; exact ⟨h1, mul_pos h2 hc⟩
  · right; left; exact ⟨h1, by rw [h2]; ring⟩
  · right; right; exact ⟨h1, mul_neg_of_neg_of_pos h2 hc⟩

theorem pos_iff_mixed {p q r : ℝ} (hp : 0 < p) (hq : q < 0) (hr : 0 ≤ r) :
    (0 < p + q * r) ↔ q ^ 2 * r ^ 2 < p ^ 2 := by
  have hnb : 0 ≤ -q * r := by nlinarith
  have hiff : (-q * r) ^ 2 < p ^ 2 ↔ -q * r < p := sq_lt_sq_iff_left hnb hp.le
  constructor
  · intro h
    have h2 := hiff.mpr (by linarith)
    nlinarith
  · intro h
    have h2 : (-q * r) ^ 2 < p ^ 2 := by nlinarith
    have := hiff.mp h2
    linarith

theorem neg_iff_mixed {p q r : ℝ} (hp : 0 < p) (hq : q < 0) (hr : 0 ≤ r) :
    (p + q * r < 0) ↔ p ^ 2 < q ^ 2 * r ^ 2 := by
  have hnb : 0 ≤ -q * r := by nlinarith
  have hiff : p ^ 2 < (-q * r) ^ 2 ↔ p < -q * r := sq_lt_sq_iff_left hp.le hnb
  constructor
  · intro h
    have h2 := hiff.mpr (by linarith)
    nlinarith
  · intro h
    have h2 : p ^ 2 < (-q * r) ^ 2 := by nlinarith
    have := hiff.mp h2
    linarith

/-- The sign of p + q·r for p > 0, q < 0, r ≥ 0 is the sign of p² - q²r². -/
theorem isSign_mixed {s : ℤ} {p q r : ℝ} (hp : 0 < p) (hq : q < 0) (hr : 0 ≤ r)
    (h : IsSign s (p ^ 2 - q ^ 2 * r ^ 2)) : IsSign s (p + q * r) := by
  rcases h with ⟨h1, h2⟩ | ⟨h1, h2⟩ | ⟨h1, h2⟩
  · left; exact ⟨h1, (pos_iff_mixed hp hq hr).mpr (by linarith)⟩
  · right; left
    refine ⟨h1, ?_⟩
    rcases lt_trichotomy (p + q * r) 0 with hlt | heq | hgt
    · have := (neg_iff_mixed hp hq hr).mp hlt
      linarith
    · exact heq
    · have := (pos_iff_mixed hp hq hr).mp hgt
      linarith
  · right; right; exact ⟨h1, (neg_iff_mixed hp hq hr).mpr (by linarith)⟩

/-- The sign of p + q·r for p < 0, q > 0, r ≥ 0 is minus the sign of
p² - q²r². -/
theorem isSign_mixed_neg {s : ℤ} {p q r : ℝ} (hp : p < 0) (hq : 0 < q) (hr : 0 ≤ r)
    (h : IsSign s (p ^ 2 - q ^ 2 * r ^ 2)) : IsSign (-s) (p + q * r) := by
  have h2 : IsSign s ((-p) ^ 2 - (-q) ^ 2 * r ^ 2) := by
    have : (-p) ^ 2 - (-q) ^ 2 * r ^ 2 = p ^ 2 - q ^ 2 * r ^ 2 := by ring
    rw [this]; exact h
  have h3 := isSign_mixed (by linarith) (by linarith) hr h2
  have h4 := h3.neg
  have : -(-p + -q * r) = p + q * r := by ring
  rw [this] at h4
  exact h4

/-- Exact sign of P + Q·√u, for P and Q of the form a + b·√2 and u a natural
radicand, computed by integer arithmetic only. -/
def sgnExt (P Q : Q2) (u : ℕ) : ℤ :=
  if u = 0 then P.sgn
  else if Q.sgn = 0 then P.sgn
  else if P.sgn = 0 then Q.sgn
  else if P.sgn = Q.sgn then P.sgn
  else P.sgn * (sub (mul P P) (scale (u : ℤ) (mul Q Q))).sgn

theorem isSign_sgnExt (P Q : Q2) (u : ℕ) :
    IsSign (sgnExt P Q u) (P.toReal + Q.toReal * Real.sqrt u) := by
  have hP := isSign_sgn P
  have hQ := isSign_sgn Q
  have hD := isSign_sgn (sub (mul P P) (scale (u : ℤ) (mul Q Q)))
  rw [toReal_sub, toReal_mul, toReal_scale, toReal_mul] at hD
  rw [sgnExt]
  split_ifs with hu hq0 hp0 hpq
  · subst hu
    simpa using hP
  · have : Q.toReal = 0 := hQ.zero_iff.mp hq0
    rw [this]
    simpa using hP
  · have hPz : P.toReal = 0 := hP.zero_iff.mp hp0
    rw [hPz, zero_add]
    have hupos : (0 : ℝ) < Real.sqrt u := by
      apply Real.sqrt_pos.mpr
      exact_mod_cast Nat.pos_of_ne_zero hu
    exact hQ.mul_right_pos hupos
  · have hupos : (0 : ℝ) < Real.sqrt u := by
      apply Real.sqrt_pos.mpr
      exact_mod_cast Nat.pos_of_ne_zero hu
    have hQ2 : IsSign P.sgn (Q.toReal * Real.sqrt u) := by
      rw [hpq]; exact hQ.mul_right_pos hupos
    exact hP.add_same hQ2
  · -- opposite nonzero signs
    have hupos : (0 : ℝ) < Real.sqrt u := by
      apply Real.sqrt_pos.mpr
      exact_mod_cast Nat.pos_of_ne_zero hu
    have hsq : Real.sqrt u ^ 2 = (u : ℝ) := Real.sq_sqrt (by positivity)
    have hDval : (↑u : ℝ) * (Q.toReal * Q.toReal) =
        Q.toReal ^ 2 * Real.sqrt u ^ 2 := by rw [hsq]; ring
    have hD2 : IsSign (sub (mul P P) (scale (u : ℤ) (mul Q Q))).sgn
        (P.toReal ^ 2 - Q.toReal ^ 2 * Real.sqrt u ^ 2) := by
      have : P.toReal * P.toReal - (↑(u : ℤ) : ℝ) * (Q.toReal * Q.toReal) =
          P.toReal ^ 2 - Q.toReal ^ 2 * Real.sqrt u ^ 2 := by
        push_cast
        rw [hsq]; ring
      rw [this] at hD
      exact hD
    rcases hP.mem with hp1 | hp1 | hp1
    · -- P positive, so Q negative
      have hq1 : Q.sgn = -1 := by
        rcases hQ.mem with h | h | h
        · exact absurd (hp1.trans h.symm) hpq
        · exact absurd h hq0
        · exact h
      have hPpos : 0 < P.toReal := hP.pos_iff.mp hp1
      have hQneg : Q.toReal < 0 := hQ.neg_iff.mp hq1
      rw [hp1, one_mul]
      exact isSign_mixed hPpos hQneg (Real.sqrt_nonneg _) hD2
    · exact absurd hp1 hp0
    · -- P negative, so Q positive
      have hq1 : Q.sgn = 1 := by
        rcases hQ.mem with h | h | h
        · exact h
        · exact absurd h hq0
        · exact absurd (hp1.trans h.symm) hpq
      have hPneg : P.toReal < 0 := hP.neg_iff.mp hp1
      have hQpos : 0 < Q.toReal := hQ.pos_iff.mp hq1
      rw [hp1]
      have := isSign_mixed_neg hPneg hQpos (Real.sqrt_nonneg _) hD2
      have heq : (-1 : ℤ) * (sub (mul P P) (scale (u : ℤ) (mul Q Q))).sgn =
          -(sub (mul P P) (scale (u : ℤ) (mul Q Q))).sgn := by ring
      rw [heq]
      exact this

/-- Exact sign of G + q1·√u + q2·√v, for G, q1, q2 of the form a + b·√2 and
u, v natural radicands. -/
def sgn3 (G q1 : Q2) (u : ℕ) (q2 : Q2) (v : ℕ) : ℤ :=
  if v = 0 ∨ q2.sgn = 0 then sgnExt G q1 u
  else if u = 0 ∨ q1.sgn = 0 then sgnExt G q2 v
  else if sgnExt G q1 u = 0 then q2.sgn
  else if sgnExt G q1 u = q2.sgn then sgnExt G q1 u
  else
    sgnExt G q1 u *
      sgnExt (sub (add (mul G G) (scale (u : ℤ) (mul q1 q1))) (scale (v : ℤ) (mul q2 q2)))
        (scale 2 (mul G q1)) u

theorem isSign_sgn3 (G q1 : Q2) (u : ℕ) (q2 : Q2) (v : ℕ) :
    IsSign (sgn3 G q1 u q2 v)
      (G.toReal + q1.toReal * Real.sqrt u + q2.toReal * Real.sqrt v) := by
  have hA := isSign_sgnExt G q1 u
  have hq2 := isSign_sgn q2
  have hq1 := isSign_sgn q1
  rw [sgn3]
  split_ifs with hv hu hA0 hAq
  · -- the q2 term vanishes
    have : q2.toReal * Real.sqrt v = 0 := by
      rcases hv with hv | hv
      · subst hv; simp
      · rw [hq2.zero_iff.mp hv]; ring
    rw [this, add_zero]
    exact hA
  · -- the q1 term vanishes
    have : q1.toReal * Real.sqrt u = 0 := by
      rcases hu with hu | hu
      · subst hu; simp
      · rw [hq1.zero_iff.mp hu]; ring
    rw [this, add_zero]
    exact isSign_sgnExt G q2 v
  · -- A = 0
    push_neg at hv
    have hvpos : (0 : ℝ) < Real.sqrt v := by
      apply Real.sqrt_pos.mpr
      exact_mod_cast Nat.pos_of_ne_zero hv.1
    rw [hA.zero_iff.mp hA0, zero_add]
    exact hq2.mul_right_pos hvpos
  · -- A and the q2 term share a sign
    push_neg at hv
    have hvpos : (0 : ℝ) < Real.sqrt v := by
      apply Real.sqrt_pos.mpr
      exact_mod_cast Nat.pos_of_ne_zero hv.1
    have h2 : IsSign (sgnExt G q1 u) (q2.toReal * Real.sqrt v) := by
      rw [hAq]; exact hq2.mul_right_pos hvpos
    exact hA.add_same h2
  · -- A and the q2 term have opposite nonzero signs
    push_neg at hv hu
    have hvpos : (0 : ℝ) < Real.sqrt v := by
      apply Real.sqrt_pos.mpr
      exact_mod_cast Nat.pos_of_ne_zero hv.1
    have hsqu : Real.sqrt u ^ 2 = (u : ℝ) := Real.sq_sqrt (by positivity)
    have hsqv : Real.sqrt v ^ 2 = (v : ℝ) := Real.sq_sqrt (by positivity)
    set A := G.toReal + q1.toReal * Real.sqrt u with hAdef
    have hInner := isSign_sgnExt
      (sub (add (mul G G) (scale (u : ℤ) (mul q1 q1))) (scale (v : ℤ) (mul q2 q2)))
      (scale 2 (mul G q1)) u
    rw [toReal_sub, toReal_add, toReal_mul, toReal_scale, toReal_mul,
      toReal_scale, toReal_mul, toReal_scale, toReal_mul] at hInner
    have hval : G.toReal * G.toReal + (↑(u : ℤ) : ℝ) * (q1.toReal * q1.toReal) -
        (↑(v : ℤ) : ℝ) * (q2.toReal * q2.toReal) +
        (2 : ℤ) * (G.toReal * q1.toReal) * Real.sqrt u =
        A ^ 2 - q2.toReal ^ 2 * Real.sqrt v ^ 2 := by
      rw [hAdef]
      push_cast
      rw [hsqv]
      nlinarith [hsqu]
    rw [hval] at hInner
    rcases hA.mem with hp1 | hp1 | hp1
    · have hq1s : q2.sgn = -1 := by
        rcases hq2.mem with h | h | h
        · exact absurd (hp1.trans h.symm) hAq
        · exact absurd h hv.2
        · exact h
      have hApos : 0 < A := hA.pos_iff.mp hp1
      have hQneg : q2.toReal < 0 := hq2.neg_iff.mp hq1s
      rw [hp1, one_mul]
      exact isSign_mixed hApos hQneg (Real.sqrt_nonneg _) hInner
    · exact absurd hp1 hA0
    · have hq1s : q2.sgn = 1 := by
        rcases hq2.mem with h | h | h
        · exact h
        · exact absurd h hv.2
        · exact absurd (hp1.trans h.symm) hAq
      have hAneg : A < 0 := hA.neg_iff.mp hp1
      have hQpos : 0 < q2.toReal := hq2.pos_iff.mp hq1s
      rw [hp1]
      have := isSign_mixed_neg hAneg hQpos (Real.sqrt_nonneg _) hInner
      have heq : (-1 : ℤ) * sgnExt (sub (add (mul G G) (scale (u : ℤ) (mul q1 q1)))
          (scale (v : ℤ) (mul q2 q2))) (scale 2 (mul G q1)) u =
          -(sgnExt (sub (add (mul G G) (scale (u : ℤ) (mul q1 q1)))
            (scale (v : ℤ) (mul q2 q2))) (scale 2 (mul G q1)) u) := by ring
      rw [heq]
      exact this

end Q2

/-- An exact f-value g + √m: a Q2 part g plus the square root of the natural
radicand m.  Every f-score / total-distance float arising in either variant
is of this form. -/
abbrev FVal := Q2 × ℕ

/-- The real number represented by an f-value. -/
noncomputable def FVal.toReal (f : FVal) : ℝ := f.1.toReal + Real.sqrt f.2

/-- Exact decision of the float comparison f1 < f2 between two f-values. -/
def fblt (f1 f2 : FVal) : Bool :=
  decide (Q2.sgn3 (Q2.sub f1.1 f2.1) Q2.one f1.2 ⟨-1, 0⟩ f2.2 = -1)

theorem fblt_iff (f1 f2 : FVal) : fblt f1 f2 = true ↔ f1.toReal < f2.toReal := by
  have h := Q2.isSign_sgn3 (Q2.sub f1.1 f2.1) Q2.one f1.2 ⟨-1, 0⟩ f2.2
  have hval : (Q2.sub f1.1 f2.1).toReal + Q2.one.toReal * Real.sqrt f1.2 +
      (Q2.toReal ⟨-1, 0⟩) * Real.sqrt f2.2 = f1.toReal - f2.toReal := by
    rw [Q2.toReal_sub, Q2.toReal_one]
    simp only [Q2.toReal, FVal.toReal]
    push_cast
    ring
  rw [hval] at h
  rw [fblt, decide_eq_true_iff, h.neg_iff]
  constructor <;> intro <;> linarith

/-- Exact decision of the float comparison x ≥ y between two accumulated
costs of the form a + b·√2. -/
def q2ge (x y : Q2) : Bool := decide ((Q2.sub x y).sgn ≠ -1)

theorem q2ge_iff (x y : Q2) : q2ge x y = true ↔ y.toReal ≤ x.toReal := by
  have h := Q2.isSign_sgn (Q2.sub x y)
  rw [Q2.toReal_sub] at h
  rw [q2ge, decide_eq_true_iff]
  rw [ne_eq, h.neg_iff]
  constructor <;> intro <;> linarith

/-- Exact decision of √a + √b < √c + √d, the obstacle-scan float comparison
dist < min_distance in pathfinder.py find_path. -/
def distSumLt (a b c d : ℕ) : Bool :=
  decide (Q2.sgn3 ⟨(c : ℤ) + (d : ℤ) - (a : ℤ) - (b : ℤ), 0⟩ ⟨2, 0⟩ (c * d)
    ⟨-2, 0⟩ (a * b) = 1)

theorem distSumLt_iff (a b c d : ℕ) :
    distSumLt a b c d = true ↔
      Real.sqrt a + Real.sqrt b < Real.sqrt c + Real.sqrt d := by
  have h := Q2.isSign_sgn3 ⟨(c : ℤ) + (d : ℤ) - (a : ℤ) - (b : ℤ), 0⟩ ⟨2, 0⟩ (c * d)
    ⟨-2, 0⟩ (a * b)
  have hab : Real.sqrt (↑(a * b)) = Real.sqrt a * Real.sqrt b := by
    push_cast
    exact Real.sqrt_mul (by positivity) _
  have hcd : Real.sqrt (↑(c * d)) = Real.sqrt c * Real.sqrt d := by
    push_cast
    exact Real.sqrt_mul (by positivity) _
  have hval : (Q2.toReal ⟨(c : ℤ) + (d : ℤ) - (a : ℤ) - (b : ℤ), 0⟩) +
      (Q2.toReal ⟨2, 0⟩) * Real.sqrt (↑(c * d)) +
      (Q2.toReal ⟨-2, 0⟩) * Real.sqrt (↑(a * b)) =
      ((c : ℝ) + d + 2 * (Real.sqrt c * Real.sqrt d)) -
        ((a : ℝ) + b + 2 * (Real.sqrt a * Real.sqrt b)) := by
    rw [hab, hcd]
    simp only [Q2.toReal]
    push_cast
    ring
  rw [hval] at h
  rw [distSumLt, decide_eq_true_iff, h.pos_iff]
  have hL : 0 ≤ Real.sqrt a + Real.sqrt b := by positivity
  have hR : 0 ≤ Real.sqrt c + Real.sqrt d := by positivity
  have hsq := Q2.sq_lt_sq_iff_left hL hR
  rw [← hsq]
  have ha2 : Real.sqrt a ^ 2 = (a : ℝ) := Real.sq_sqrt (by positivity)
  have hb2 : Real.sqrt b ^ 2 = (b : ℝ) := Real.sq_sqrt (by positivity)
  have hc2 : Real.sqrt c ^ 2 = (c : ℝ) := Real.sq_sqrt (by positivity)
  have hd2 : Real.sqrt d ^ 2 = (d : ℝ) := Real.sq_sqrt (by positivity)
  constructor <;> intro hh <;> nlinarith [hh, ha2, hb2, hc2, hd2]

/-- Exact value of `math.dist` between two cells as an a + b·√2 value.  Both
navigate variants apply `math.dist` to a cell and one of its 8 neighbours,
whose squared distance is 1 or 2, so the value is exactly representable;
the first branch also covers any perfect-square radicand. -/
def distQ2 (p q : Cell) : Q2 :=
  if sqDist p q = 2 then ⟨0, 1⟩ else ⟨(Nat.sqrt (sqDist p q) : ℤ), 0⟩

/-
A faithful port of CPython's heapq (heappush, heappop, heapify), which is the
priority queue both variants use.  The Python heap holds Point objects that
are mutated in place through the visited dictionary; since a Point object is
created at most once per cell and the dictionary maps each cell to its unique
Point, the embedding stores cells in the heap and the comparison function
looks the current Point data up in the dictionary, exactly as the Python
object references do.
-/

/-- CPython heapq._siftdown: bubble newitem from pos up towards startpos.
The fuel argument equals pos, which bounds the number of iterations. -/
def siftdownGo {α : Type} (lt : α → α → Bool) (dflt : α) :
    List α → ℕ → ℕ → α → ℕ → List α
  | heap, _, pos, newitem, 0 => heap.set pos newitem
  | heap, startpos, pos, newitem, fuel + 1 =>
    if startpos < pos then
      let parentpos := (pos - 1) / 2
      let parent := heap.getD parentpos dflt
      if lt newitem parent then
        siftdownGo lt dflt (heap.set pos parent) startpos parentpos newitem fuel
      else heap.set pos newitem
    else heap.set pos newitem

/-- CPython heapq._siftup phase 1: move the hole at pos down to a leaf,
always towards the smaller child, then place newitem and bubble it up. -/
def siftupGo {α : Type} (lt : α → α → Bool) (dflt : α) :
    List α → ℕ → α → ℕ → ℕ → List α
  | heap, pos, newitem, startpos, 0 =>
    siftdownGo lt dflt (heap.set pos newitem) startpos pos newitem pos
  | heap, pos, newitem, startpos, fuel + 1 =>
    let endpos := heap.length
    let childpos := 2 * pos + 1
    if childpos < endpos then
      let rightpos := childpos + 1
      let childpos2 :=
        if rightpos < endpos ∧
            lt (heap.getD childpos dflt) (heap.getD rightpos dflt) = false then
          rightpos
        else childpos
      siftupGo lt dflt (heap.set pos (heap.getD childpos2 dflt)) childpos2
        newitem startpos fuel
    else
      siftdownGo lt dflt (heap.set pos newitem) startpos pos newitem pos

/-- CPython heapq._siftup(heap, pos). -/
def siftup {α : Type} (lt : α → α → Bool) (dflt : α) (heap : List α) (pos : ℕ) :
    List α :=
  siftupGo lt dflt heap pos (heap.getD pos dflt) pos heap.length

/-- CPython heapq.heappush. -/
def heappush {α : Type} (lt : α → α → Bool) (dflt : α) (heap : List α)
    (item : α) : List α :=
  let h := heap ++ [item]
  siftdownGo lt dflt h 0 (h.length - 1) item (h.length - 1)

/-- CPython heapq.heappop: returns the popped minimum and the new heap. -/
def heappop {α : Type} (lt : α → α → Bool) (dflt : α) (heap : List α) :
    Option α × List α :=
  match heap.getLast? with
  | none => (none, [])
  | some lastelt =>
    let rest := heap.dropLast
    if rest.isEmpty then (some lastelt, [])
    else (rest.head?, siftup lt dflt (rest.set 0 lastelt) 0)

/-- CPython heapq.heapify: siftup at positions n/2 - 1 down to 0. -/
def heapifyGo {α : Type} (lt : α → α → Bool) (dflt : α) :
    List α → ℕ → List α
  | heap, 0 => heap
  | heap, i + 1 => heapifyGo lt dflt (siftup lt dflt heap i) i

/-- CPython heapq.heapify. -/
def heapify {α : Type} (lt : α → α → Bool) (dflt : α) (heap : List α) :
    List α :=
  heapifyGo lt dflt heap (heap.length / 2)

/-- Default cell used only to give total lookups in the heap port; every
index the heap code reads is in range, so it is never consulted. -/
def cellDflt : Cell := (0, 0)

namespace APCSP

/-
Embedding of APCSP_pathfinder.py.  The float fields dist_to_start and
dist_to_end of class Point always hold, exactly, a value a + b·√2 and the
square root of an integer respectively, so the embedding stores
dist_to_start as a Q2 value and dist_to_end by its radicand
dist_to_end_sq (the stored float is √dist_to_end_sq).  The parent object
reference is stored as the parent's cell; the cell's Point record lives in
the dictionary, which is exactly how the Python objects are shared.
-/

structure Point where
  x : ℤ
  y : ℤ
  dist_to_start : Q2 := Q2.zero
  dist_to_end_sq : ℕ := 0
  visited : Bool := false
  parent : Option Cell := none
deriving DecidableEq, Repr

/-- Point.__lt__ from APCSP_pathfinder.py: compares
self.dist_to_start + self.dist_to_end against
self.dist_to_start + other.dist_to_end (sic: self's dist_to_start on both
sides), exactly as the source does. -/
def Point.lt (self other : Point) : Bool :=
  fblt (self.dist_to_start, self.dist_to_end_sq)
    (self.dist_to_start, other.dist_to_end_sq)

/-- The real total-cost value dist_to_start + dist_to_end of a Point. -/
noncomputable def Point.total (p : Point) : ℝ :=
  p.dist_to_start.toReal + Real.sqrt p.dist_to_end_sq

/-- The list of eight move offsets, in source order. -/
def directions : List (ℤ × ℤ) :=
  [(0, 1), (0, -1), (1, 0), (-1, 0), (1, 1), (-1, -1), (1, -1), (-1, 1)]

/-- neighbors from APCSP_pathfinder.py: keeps a candidate (x, y) unless it is
an obstacle, or x ≤ 0, or y ≤ 0, or x ≥ N, or y ≥ M. -/
def neighbors (p : Point) (obstacles : List Cell) (N M : ℤ) : List Cell :=
  directions.filterMap (fun d =>
    let x := p.x + d.1
    let y := p.y + d.2
    if (x, y) ∈ obstacles ∨ x ≤ 0 ∨ y ≤ 0 ∨ N ≤ x ∨ M ≤ y then none
    else some (x, y))

/-- The point_dict dictionary mapping a cell to its unique Point record. -/
abbrev Dict := List (Cell × Point)

def lookup (d : Dict) (c : Cell) : Option Point :=
  match d with
  | [] => none
  | e :: rest => if e.1 = c then some e.2 else lookup rest c

/-- In-place mutation of the Point record owned by cell c. -/
def updateD (d : Dict) (c : Cell) (p : Point) : Dict :=
  match d with
  | [] => []
  | e :: rest => if e.1 = c then (c, p) :: rest else e :: updateD rest c p

/-- current.visited = True. -/
def setVisited (d : Dict) (c : Cell) : Dict :=
  match d with
  | [] => []
  | e :: rest =>
    if e.1 = c then (e.1, { e.2 with visited := true }) :: rest
    else e :: setVisited rest c

/-- The heap's element comparison: the heap stores cells and compares the
Point records they own via Point.__lt__. -/
def cellLt (d : Dict) (c1 c2 : Cell) : Bool :=
  match lookup d c1, lookup d c2 with
  | some p, some q => p.lt q
  | _, _ => false

/-- retrace_steps from APCSP_pathfinder.py: follow parent references from the
popped end point back to the start, then reverse.  The fuel bounds the chain
length by the dictionary size. -/
def retrace_stepsGo (d : Dict) : ℕ → Cell → List Cell
  | 0, _ => []
  | fuel + 1, c =>
    c ::
      (match (lookup d c).bind Point.parent with
       | some c2 => retrace_stepsGo d fuel c2
       | none => [])

def retrace_steps (d : Dict) (c : Cell) : List Cell :=
  (retrace_stepsGo d (d.length + 1) c).reverse

/-- One neighbour n of the popped point c (the body of the for-loop in
navigate): relax a seen, unvisited point, or create and push a new one. -/
def processNeighbor (finish c : Cell) (gcur : Q2) (st : Dict × List Cell)
    (n : Cell) : Dict × List Cell :=
  let d := st.1
  let h := st.2
  match lookup d n with
  | some p =>
    if p.visited then (d, h)
    else
      let offered := Q2.add gcur (distQ2 n c)
      if q2ge offered p.dist_to_start then (d, h)
      else
        let d2 := updateD d n
          { p with
            dist_to_start := offered
            dist_to_end_sq := sqDist n finish
            parent := some c }
        (d2, heapify (cellLt d2) cellDflt h)
  | none =>
    let p : Point :=
      { x := n.1, y := n.2
        dist_to_start := distQ2 c n
        dist_to_end_sq := sqDist n finish
        parent := some c }
    let d2 := d ++ [(n, p)]
    (d2, heappush (cellLt d2) cellDflt h n)

/-- The while-candidates loop of navigate.  One fuel unit per pop; a point is
pushed at most once per cell, so the fuel chosen by navigate is ample. -/
def navigateLoop (finish : Cell) (obstacles : List Cell) (N M : ℤ) :
    ℕ → List Cell → Dict → List Cell
  | 0, _, _ => []
  | fuel + 1, heap, d =>
    match heappop (cellLt d) cellDflt heap with
    | (none, _) => []
    | (some c, heap2) =>
      let d2 := setVisited d c
      if c = finish then retrace_steps d2 c
      else
        let cur := (lookup d2 c).getD { x := c.1, y := c.2 }
        let st := (neighbors cur obstacles N M).foldl
          (processNeighbor finish c cur.dist_to_start) (d2, heap2)
        navigateLoop finish obstacles N M fuel st.2 st.1

/-- navigate from APCSP_pathfinder.py. -/
def navigate (start finish : Cell) (obstacles : List Cell) (N M : ℤ) :
    List Cell :=
  let start_point : Point :=
    { x := start.1, y := start.2
      dist_to_start := Q2.zero
      dist_to_end_sq := sqDist start finish }
  navigateLoop finish obstacles N M ((N.toNat + 2) * (M.toNat + 2) + 2)
    [start] [(start, start_point)]

/-- find_path from APCSP_pathfinder.py: navigate between consecutive
waypoints, appending each found segment; on the first failed segment append
the empty list and stop. -/
def find_path : List Cell → List Cell → ℤ → ℤ → List (List Cell)
  | w0 :: w1 :: rest, obstacles, N, M =>
    let path_segment := navigate w0 w1 obstacles N M
    if path_segment.isEmpty then [[]]
    else path_segment :: find_path (w1 :: rest) obstacles N M
  | _, _, _, _ => []

end APCSP

namespace PF

/-
Embedding of pathfinder.py.  The float fields f_score and g_score of class
Point always hold, exactly, a value g + √m (g of the form a + b·√2, m an
integer radicand) and a value of the form a + b·√2 respectively, so the
embedding stores f_score as an FVal and g_score as a Q2 value.  The parent
object reference is stored as the parent's cell, looked up in the visited
dictionary, exactly as the Python object references share state.
-/

structure Point where
  x : ℤ
  y : ℤ
  f_score : FVal := (Q2.zero, 0)
  g_score : Q2 := Q2.zero
  state : ℕ := 0
  parent : Option Cell := none
deriving DecidableEq, Repr

/-- Point.__lt__ from pathfinder.py: compares self.f_score with
other.f_score. -/
def Point.lt (self other : Point) : Bool := fblt self.f_score other.f_score

/-- The real value of a Point's f_score. -/
noncomputable def Point.total (p : Point) : ℝ := FVal.toReal p.f_score

/-- neighbors from pathfinder.py: keeps a candidate (x, y) unless it is an
obstacle, or y ≤ 0, or x ≤ 0, or y ≥ N, or x ≥ M (sic: y is compared against
N and x against M), and additionally rejects a diagonal candidate whose two
orthogonal corner cells include an obstacle. -/
def neighbors (p : Point) (obstacles : List Cell) (N M : ℤ) : List Cell :=
  APCSP.directions.filterMap (fun d =>
    let x := p.x + d.1
    let y := p.y + d.2
    if (x, y) ∈ obstacles ∨ y ≤ 0 ∨ x ≤ 0 ∨ N ≤ y ∨ M ≤ x then none
    else if d.1 ≠ 0 ∧ d.2 ≠ 0 ∧
        ((p.x + d.1, p.y) ∈ obstacles ∨ (p.x, p.y + d.2) ∈ obstacles) then none
    else some (x, y))

/-- The visited dictionary mapping a cell to its unique Point record. -/
abbrev Dict := List (Cell × Point)

def lookup (d : Dict) (c : Cell) : Option Point :=
  match d with
  | [] => none
  | e :: rest => if e.1 = c then some e.2 else lookup rest c

def updateD (d : Dict) (c : Cell) (p : Point) : Dict :=
  match d with
  | [] => []
  | e :: rest => if e.1 = c then (c, p) :: rest else e :: updateD rest c p

/-- current.state = 1 (CLOSED). -/
def setClosed (d : Dict) (c : Cell) : Dict :=
  match d with
  | [] => []
  | e :: rest =>
    if e.1 = c then (e.1, { e.2 with state := 1 }) :: rest
    else e :: setClosed rest c

def cellLt (d : Dict) (c1 c2 : Cell) : Bool :=
  match lookup d c1, lookup d c2 with
  | some p, some q => p.lt q
  | _, _ => false

/-- retrace_steps from pathfinder.py. -/
def retrace_stepsGo (d : Dict) : ℕ → Cell → List Cell
  | 0, _ => []
  | fuel + 1, c =>
    c ::
      (match (lookup d c).bind Point.parent with
       | some c2 => retrace_stepsGo d fuel c2
       | none => [])

def retrace_steps (d : Dict) (c : Cell) : List Cell :=
  (retrace_stepsGo d (d.length + 1) c).reverse

/-- One neighbour n of the popped point c (the body of the for-loop in
navigate): relax a seen, open point, or create and push a new one.  Note the
source initialises a brand-new point with g_score = math.dist(current, n)
alone, without adding current.g_score; the embedding reproduces this. -/
def processNeighbor (p2 c : Cell) (gcur : Q2) (st : Dict × List Cell)
    (n : Cell) : Dict × List Cell :=
  let d := st.1
  let h := st.2
  match lookup d n with
  | some p =>
    if p.state = 1 then (d, h)
    else
      let offered_gscore := Q2.add gcur (distQ2 n c)
      if q2ge offered_gscore p.g_score then (d, h)
      else
        let d2 := updateD d n
          { p with
            g_score := offered_gscore
            f_score := (offered_gscore, sqDist n p2)
            parent := some c }
        (d2, heapify (cellLt d2) cellDflt h)
  | none =>
    let g_score := distQ2 c n
    let p : Point :=
      { x := n.1, y := n.2
        f_score := (g_score, sqDist n p2)
        g_score := g_score
        parent := some c }
    let d2 := d ++ [(n, p)]
    (d2, heappush (cellLt d2) cellDflt h n)

/-- The while-openpoints loop of navigate. -/
def navigateLoop (p2 : Cell) (obstacles : List Cell) (N M : ℤ) :
    ℕ → List Cell → Dict → List Cell
  | 0, _, _ => []
  | fuel + 1, heap, d =>
    match heappop (cellLt d) cellDflt heap with
    | (none, _) => []
    | (some c, heap2) =>
      let d2 := setClosed d c
      if c = p2 then retrace_steps d2 c
      else
        let cur := (lookup d2 c).getD { x := c.1, y := c.2 }
        let st := (neighbors cur obstacles N M).foldl
          (processNeighbor p2 c cur.g_score) (d2, heap2)
        navigateLoop p2 obstacles N M fuel st.2 st.1

/-- navigate from pathfinder.py.  The start Point is created with all-default
scores and pushed onto the empty heap. -/
def navigate (p1 p2 : Cell) (obstacles : List Cell) (N M : ℤ) : List Cell :=
  let start : Point := { x := p1.1, y := p1.2 }
  navigateLoop p2 obstacles N M ((N.toNat + 2) * (M.toNat + 2) + 2)
    (heappush (cellLt [(p1, start)]) cellDflt [] p1) [(p1, start)]

/-- get_path_to_obstacle from pathfinder.py: navigate to the obstacle cell
(with the obstacle set unchanged) and drop the final cell of a non-empty
result. -/
def get_path_to_obstacle (waypoint obstacle : Cell) (obstacles : List Cell)
    (N M : ℤ) : List Cell :=
  let path_to_obstacle := navigate waypoint obstacle obstacles N M
  if path_to_obstacle.isEmpty then [] else path_to_obstacle.dropLast

/-- The obstacle scan in find_path: the obstacle minimising
dist(w_i, obstacle) + dist(obstacle, w_next), scanning in list order with a
strict comparison against the running minimum (initially infinity). -/
def minObstacle (wi wnext : Cell) (obstacles : List Cell) : Option Cell :=
  (obstacles.foldl
    (fun best o =>
      let dsq := (sqDist wi o, sqDist o wnext)
      match best with
      | none => some (o, dsq)
      | some (_, cur) =>
        if distSumLt dsq.1 dsq.2 cur.1 cur.2 then some (o, dsq) else best)
    none).map Prod.fst

/-- The for-loop of find_path from pathfinder.py, carrying the accumulated
final_path and whether the current pair is the first (i == 0). -/
def find_pathAux (obstacles : List Cell) (N M : ℤ) :
    List Cell → Bool → List Cell → List Cell × Bool
  | acc, isFirst, w0 :: w1 :: rest =>
    let path_segment := navigate w0 w1 obstacles N M
    if path_segment.isEmpty then
      match minObstacle w0 w1 obstacles with
      | some obstacle_point =>
        (acc ++ get_path_to_obstacle w0 obstacle_point obstacles N M ++
          [obstacle_point], false)
      | none => (acc, false)
    else
      find_pathAux obstacles N M
        (acc ++ (if isFirst then path_segment else path_segment.tail))
        false (w1 :: rest)
  | acc, _, _ => (acc, true)

/-- find_path from pathfinder.py. -/
def find_path (waypoints : List Cell) (polygons : List Cell) (N M : ℤ) :
    List Cell × Bool :=
  find_pathAux polygons N M [] true waypoints

/-- The consecutive pairwise navigate results of pathfinder.py's find_path,
in order. -/
def segments (waypoints obstacles : List Cell) (N M : ℤ) : List (List Cell) :=
  match waypoints with
  | w0 :: w1 :: rest => navigate w0 w1 obstacles N M :: segments (w1 :: rest) obstacles N M
  | _ => []

end PF

/-- Total Euclidean length of a cell sequence, the notion of path length the
specification's optimality property uses. -/
noncomputable def pathLen : List Cell → ℝ
  | c1 :: c2 :: rest => euclid c1 c2 + pathLen (c2 :: rest)
  | _ => 0

/-- Every consecutive move of the sequence is permitted by
APCSP_pathfinder.py's neighbors function. -/
def chainOkA (obstacles : List Cell) (N M : ℤ) : List Cell → Bool
  | c1 :: c2 :: rest =>
    decide (c2 ∈ APCSP.neighbors { x := c1.1, y := c1.2 } obstacles N M) &&
      chainOkA obstacles N M (c2 :: rest)
  | _ => true

/-- The sequence p is a path of valid moves from s to e under
APCSP_pathfinder.py's movement rule. -/
def isPathA (obstacles : List Cell) (N M : ℤ) (s e : Cell) (p : List Cell) :
    Bool :=
  decide (p.head? = some s) && decide (p.getLast? = some e) &&
    chainOkA obstacles N M p

/-- Every consecutive move of the sequence is permitted by pathfinder.py's
neighbors function (including its corner-cutting rule). -/
def chainOkB (obstacles : List Cell) (N M : ℤ) : List Cell → Bool
  | c1 :: c2 :: rest =>
    decide (c2 ∈ PF.neighbors { x := c1.1, y := c1.2 } obstacles N M) &&
      chainOkB obstacles N M (c2 :: rest)
  | _ => true

/-- The sequence p is a path of valid moves from s to e under
pathfinder.py's movement rule. -/
def isPathB (obstacles : List Cell) (N M : ℤ) (s e : Cell) (p : List Cell) :
    Bool :=
  decide (p.head? = some s) && decide (p.getLast? = some e) &&
    chainOkB obstacles N M p

theorem pathLen_cons (c1 c2 : Cell) (rest : List Cell) :
    pathLen (c1 :: c2 :: rest) = euclid c1 c2 + pathLen (c2 :: rest) := rfl

theorem pathLen_single (c : Cell) : pathLen [c] = 0 := rfl

theorem euclid_one (a b : Cell) (h : sqDist a b = 1) : euclid a b = 1 := by
  rw [euclid, h]; simp

theorem euclid_rt2 (a b : Cell) (h : sqDist a b = 2) :
    euclid a b = Real.sqrt 2 := by
  rw [euclid, h]; norm_num

theorem one_lt_sqrt_two : 1 < Real.sqrt 2 := by
  nlinarith [Q2.sq_sqrt_two, Q2.sqrt_two_pos]

theorem sqrt_two_lt_two : Real.sqrt 2 < 2 := by
  nlinarith [Q2.sq_sqrt_two, Q2.sqrt_two_pos]

theorem heappop_singleton {α : Type} (lt : α → α → Bool) (dflt : α) (a : α) :
    heappop lt dflt [a] = (some a, []) := rfl

theorem heappush_nil {α : Type} (lt : α → α → Bool) (dflt : α) (a : α) :
    heappush lt dflt [] a = [a] := rfl

/-- C1: the specification claims that whenever start ≠ end and a path of
valid moves exists, navigate returns a path of minimal total Euclidean
length.  Both variants create a brand-new search node with
costFromStart = dist(current, n) instead of current.costFromStart +
dist(current, n), contradicting their own docstrings ("finds the shortest
path"), so the returned path can be longer than a valid alternative:
APCSP navigate on the 5×5 grid with obstacle (1,2) returns a path of length
3·√2 from (2,4) to (1,1) though a valid path of length 2 + √2 exists, and
pathfinder navigate with obstacles (1,1), (2,3) returns a path of length 5
from (2,1) to (2,4) though a valid path of length 3 + √2 exists. -/
theorem c1_navigate_suboptimal :
    (APCSP.navigate (2, 4) (1, 1) [(1, 2)] 5 5 =
        [(2, 4), (1, 3), (2, 2), (1, 1)] ∧
      isPathA [(1, 2)] 5 5 (2, 4) (1, 1) [(2, 4), (2, 3), (2, 2), (1, 1)] = true ∧
      pathLen [(2, 4), (2, 3), (2, 2), (1, 1)] <
        pathLen [(2, 4), (1, 3), (2, 2), (1, 1)]) ∧
    (PF.navigate (2, 1) (2, 4) [(1, 1), (2, 3)] 5 5 =
        [(2, 1), (2, 2), (1, 2), (1, 3), (1, 4), (2, 4)] ∧
      isPathB [(1, 1), (2, 3)] 5 5 (2, 1) (2, 4)
        [(2, 1), (3, 2), (3, 3), (3, 4), (2, 4)] = true ∧
      pathLen [(2, 1), (3, 2), (3, 3), (3, 4), (2, 4)] <
        pathLen [(2, 1), (2, 2), (1, 2), (1, 3), (1, 4), (2, 4)]) := by
  refine ⟨⟨rfl, by decide, ?_⟩, ⟨rfl, by decide, ?_⟩⟩
  · have q1 : euclid (2, 4) (2, 3) = 1 := euclid_one _ _ rfl
    have q2 : euclid (2, 3) (2, 2) = 1 := euclid_one _ _ rfl
    have q3 : euclid (2, 2) (1, 1) = Real.sqrt 2 := euclid_rt2 _ _ rfl
    have r1 : euclid (2, 4) (1, 3) = Real.sqrt 2 := euclid_rt2 _ _ rfl
    have r2 : euclid (1, 3) (2, 2) = Real.sqrt 2 := euclid_rt2 _ _ rfl
    simp only [pathLen_cons, pathLen_single, q1, q2, q3, r1, r2]
    nlinarith [one_lt_sqrt_two]
  · have q1 : euclid (2, 1) (3, 2) = Real.sqrt 2 := euclid_rt2 _ _ rfl
    have q2 : euclid (3, 2) (3, 3) = 1 := euclid_one _ _ rfl
    have q3 : euclid (3, 3) (3, 4) = 1 := euclid_one _ _ rfl
    have q4 : euclid (3, 4) (2, 4) = 1 := euclid_one _ _ rfl
    have r1 : euclid (2, 1) (2, 2) = 1 := euclid_one _ _ rfl
    have r2 : euclid (2, 2) (1, 2) = 1 := euclid_one _ _ rfl
    have r3 : euclid (1, 2) (1, 3) = 1 := euclid_one _ _ rfl
    have r4 : euclid (1, 3) (1, 4) = 1 := euclid_one _ _ rfl
    have r5 : euclid (1, 4) (2, 4) = 1 := euclid_one _ _ rfl
    simp only [pathLen_cons, pathLen_single, q1, q2, q3, q4, r1, r2, r3, r4, r5]
    nlinarith [sqrt_two_lt_two]

/-- C2: the specification claims every non-empty returned path avoids the
obstacle set and stays in bounds.  Neither variant validates its inputs
(see C7), so with start = end = (1,1) and (1,1) an obstacle both variants
return the non-empty path [(1,1)] whose only cell lies in the obstacle
set. -/
theorem c2_path_contains_obstacle :
    APCSP.navigate (1, 1) (1, 1) [(1, 1)] 4 4 = [(1, 1)] ∧
    PF.navigate (1, 1) (1, 1) [(1, 1)] 4 4 = [(1, 1)] ∧
    ((1 : ℤ), (1 : ℤ)) ∈ [((1 : ℤ), (1 : ℤ))] :=
  ⟨rfl, rfl, by decide⟩

/-- C3: the specification claims both variants exclude candidates with
row ≥ height or column ≥ width.  pathfinder.py compares the column against
N (the height) and the row against M (the width), so on the program's own
40×60 grid the cell (40, 1), whose row equals the height, is produced by
neighbors and is returned inside a path. -/
theorem c3_boundary_swapped :
    ((40 : ℤ), (1 : ℤ)) ∈ PF.neighbors { x := 39, y := 1 } [] 40 60 ∧
    PF.navigate (39, 1) (40, 1) [] 40 60 = [(39, 1), (40, 1)] :=
  ⟨by decide, rfl⟩

/-- C7: the specification claims an input whose start or end cell is an
obstacle is rejected before any search begins and is never silently
searched.  Neither variant performs any validation: with start (1,1) itself
an obstacle, both variants run the search and return the path
[(1,1), (2,2)]. -/
theorem c7_no_input_validation :
    APCSP.navigate (1, 1) (2, 2) [(1, 1)] 4 4 = [(1, 1), (2, 2)] ∧
    PF.navigate (1, 1) (2, 2) [(1, 1)] 4 4 = [(1, 1), (2, 2)] :=
  ⟨rfl, rfl⟩

/-- C8: the specification claims the failing-segment fallback searches a
path from the waypoint to the chosen obstacle cell with that obstacle
temporarily excluded from the obstacle set.  get_path_to_obstacle passes
the obstacle set unchanged, so the obstacle stays unreachable, the
sub-path is always empty, and find_path returns only the obstacle cell:
with waypoints (1,1), (1,3) and the wall (1,2), (2,2), (3,2), (4,2) the
nearest obstacle is (1,2), the approach path is [], and the result is
([(1,2)], false) rather than ([(1,1), (1,2)], false). -/
theorem c8_obstacle_not_excluded :
    PF.get_path_to_obstacle (1, 1) (1, 2) [(1, 2), (2, 2), (3, 2), (4, 2)] 5 5 = [] ∧
    PF.minObstacle (1, 1) (1, 3) [(1, 2), (2, 2), (3, 2), (4, 2)] = some (1, 2) ∧
    PF.find_path [(1, 1), (1, 3)] [(1, 2), (2, 2), (3, 2), (4, 2)] 5 5 =
      ([(1, 2)], false) :=
  ⟨rfl, rfl, rfl⟩

/-- C4: in pathfinder.py, for every cell and every diagonal offset, the
diagonal candidate is rejected by neighbors whenever either of the two
orthogonally adjacent corner cells (same row as the source with the
candidate's column, or same column as the source with the candidate's row)
is in the obstacle set. -/
theorem c4_corner_cut (p : PF.Point) (obstacles : List Cell) (N M : ℤ)
    (dx dy : ℤ) (hdx : dx = 1 ∨ dx = -1) (hdy : dy = 1 ∨ dy = -1)
    (hcorner : (p.x + dx, p.y) ∈ obstacles ∨ (p.x, p.y + dy) ∈ obstacles) :
    (p.x + dx, p.y + dy) ∉ PF.neighbors p obstacles N M := by
  intro hmem
  rw [PF.neighbors, List.mem_filterMap] at hmem
  obtain ⟨d, hd, hfd⟩ := hmem
  simp only at hfd
  fin_cases hd <;>
    (simp only at hfd
     split_ifs at hfd with h1 h2 <;>
       simp only [Option.some.injEq, Prod.mk.injEq] at hfd <;>
       try exact hfd.elim) <;>
    (obtain ⟨e1, e2⟩ := hfd
     rcases hdx with rfl | rfl <;> rcases hdy with rfl | rfl <;> try omega)
  all_goals (exact h2 ⟨by norm_num, by norm_num, by simpa using hcorner⟩)

/-- Witness for C4 at a concrete input: the diagonal candidate (2, 2) from
(1, 1) is rejected because the corner cell (2, 1) is an obstacle. -/
theorem c4_corner_cut_witness :
    (((1 : ℤ) + 1, (1 : ℤ)) ∈ [((2 : ℤ), (1 : ℤ))] ∨
      ((1 : ℤ), (1 : ℤ) + 1) ∈ [((2 : ℤ), (1 : ℤ))]) ∧
    ((1 : ℤ) + 1, (1 : ℤ) + 1) ∉
      PF.neighbors { x := 1, y := 1 } [((2 : ℤ), (1 : ℤ))] 4 4 :=
  ⟨Or.inl (by decide),
    c4_corner_cut { x := 1, y := 1 } [((2 : ℤ), (1 : ℤ))] 4 4 1 1
      (Or.inl rfl) (Or.inl rfl) (Or.inl (by decide))⟩

/-- C5 counterexample: in APCSP_pathfinder.py, Point.__lt__ is not a
comparison of self's total estimated cost against other's total estimated
cost: the point with dist_to_start 10 and dist_to_end 1 (total 11) compares
as less-than the point with dist_to_start 0 and dist_to_end 2 (total 2). -/
theorem c5_lt_ignores_g :
    APCSP.Point.lt
      { x := 0, y := 0, dist_to_start := ⟨10, 0⟩, dist_to_end_sq := 1 }
      { x := 0, y := 0, dist_to_start := Q2.zero, dist_to_end_sq := 4 } = true ∧
    ¬ (APCSP.Point.total
        { x := 0, y := 0, dist_to_start := ⟨10, 0⟩, dist_to_end_sq := 1 } <
       APCSP.Point.total
        { x := 0, y := 0, dist_to_start := Q2.zero, dist_to_end_sq := 4 }) := by
  constructor
  · decide
  · have h4 : Real.sqrt 4 = 2 := by
      rw [show (4 : ℝ) = 2 ^ 2 by norm_num,
        Real.sqrt_sq (by norm_num : (0 : ℝ) ≤ 2)]
    simp only [APCSP.Point.total, Q2.toReal, Q2.zero]
    push_cast
    rw [Real.sqrt_one, h4]
    norm_num

/-- C5 amended: pathfinder.py's Point ordering compares self's f_score with
other's f_score, i.e. total estimated cost against total estimated cost,
exactly as the claim states; APCSP_pathfinder.py's Point ordering adds
self's dist_to_start to both sides, so it is equivalent to comparing
estimateToGoal (dist_to_end) alone and is not an ordering by total
estimated cost. -/
theorem c5_comparators_characterised :
    (∀ p q : PF.Point, PF.Point.lt p q = true ↔ p.total < q.total) ∧
    (∀ p q : APCSP.Point, APCSP.Point.lt p q = true ↔
      Real.sqrt p.dist_to_end_sq < Real.sqrt q.dist_to_end_sq) := by
  constructor
  · intro p q
    exact fblt_iff p.f_score q.f_score
  · intro p q
    have h := fblt_iff (p.dist_to_start, p.dist_to_end_sq)
      (p.dist_to_start, q.dist_to_end_sq)
    exact h.trans (by simp [FVal.toReal])

/-- C6: for every input with start = end, both navigate variants return the
single-cell path [start]: the loop pops the start node immediately, its
coordinates match the goal, and reconstruction yields exactly one cell. -/
theorem c6_start_eq_end (s : Cell) (obstacles : List Cell) (N M : ℤ) :
    APCSP.navigate s s obstacles N M = [s] ∧
    PF.navigate s s obstacles N M = [s] := by
  constructor
  · rw [APCSP.navigate]
    rw [show (N.toNat + 2) * (M.toNat + 2) + 2 =
        ((N.toNat + 2) * (M.toNat + 2) + 1) + 1 from rfl]
    simp only [APCSP.navigateLoop, heappop_singleton]
    simp [APCSP.setVisited, APCSP.retrace_steps, APCSP.retrace_stepsGo,
      APCSP.lookup]
  · rw [PF.navigate]
    rw [show (N.toNat + 2) * (M.toNat + 2) + 2 =
        ((N.toNat + 2) * (M.toNat + 2) + 1) + 1 from rfl]
    rw [heappush_nil]
    simp only [PF.navigateLoop, heappop_singleton]
    simp [PF.setClosed, PF.retrace_steps, PF.retrace_stepsGo, PF.lookup]

theorem find_pathAux_false (obstacles : List Cell) (N M : ℤ) :
    ∀ (ws : List Cell) (acc : List Cell),
      (∀ s ∈ PF.segments ws obstacles N M, s ≠ []) →
      PF.find_pathAux obstacles N M acc false ws =
        (acc ++ ((PF.segments ws obstacles N M).map List.tail).flatten, true) := by
  intro ws
  induction ws with
  | nil => intro acc h; simp [PF.find_pathAux, PF.segments]
  | cons w0 rest ih =>
    intro acc h
    match rest with
    | [] => simp [PF.find_pathAux, PF.segments]
    | w1 :: rest2 =>
      rw [PF.find_pathAux]
      have hseg : PF.navigate w0 w1 obstacles N M ≠ [] := by
        apply h
        rw [PF.segments]
        exact List.mem_cons_self _ _
      rw [if_neg (by simpa [List.isEmpty_iff] using hseg)]
      have h2 : ∀ s ∈ PF.segments (w1 :: rest2) obstacles N M, s ≠ [] := by
        intro s hs
        apply h
        rw [PF.segments]
        exact List.mem_cons_of_mem _ hs
      rw [ih _ h2]
      rw [PF.segments]
      simp [List.append_assoc]

/-- C9 amended: when every consecutive pairwise segment is non-empty,
pathfinder.py's find_path returns the complete flag true together with the
concatenation in which the first segment is kept whole and every subsequent
segment contributes only its cells after the first, so the shared waypoint
is not duplicated at any junction.  (A waypoint can still occur more than
once in the assembled route when another segment passes through it, which
is what refutes the claim's "each waypoint appears exactly once".) -/
theorem c9_concatenation (waypoints obstacles : List Cell) (N M : ℤ)
    (h : ∀ s ∈ PF.segments waypoints obstacles N M, s ≠ []) :
    PF.find_path waypoints obstacles N M =
      ((PF.segments waypoints obstacles N M).headD [] ++
        ((PF.segments waypoints obstacles N M).tail.map List.tail).flatten,
        true) := by
  match waypoints with
  | [] => simp [PF.find_path, PF.find_pathAux, PF.segments]
  | [w] => simp [PF.find_path, PF.find_pathAux, PF.segments]
  | w0 :: w1 :: rest =>
    rw [PF.find_path, PF.find_pathAux]
    have hseg : PF.navigate w0 w1 obstacles N M ≠ [] := by
      apply h
      rw [PF.segments]
      exact List.mem_cons_self _ _
    rw [if_neg (by simpa [List.isEmpty_iff] using hseg)]
    have h2 : ∀ s ∈ PF.segments (w1 :: rest) obstacles N M, s ≠ [] := by
      intro s hs
      apply h
      rw [PF.segments]
      exact List.mem_cons_of_mem _ hs
    rw [find_pathAux_false obstacles N M _ _ h2]
    rw [PF.segments]
    simp

/-- C9 counterexample: with waypoints (1,1), (1,3), (1,2) on an empty 5×5
grid all segments are found, yet the assembled route is
[(1,1), (1,2), (1,3), (1,2)] in which the waypoint (1,2) appears twice —
the first segment already passes through it — refuting the claim that each
waypoint appears exactly once in the assembled route. -/
theorem c9_waypoint_duplicated :
    PF.find_path [(1, 1), (1, 3), (1, 2)] [] 5 5 =
      ([(1, 1), (1, 2), (1, 3), (1, 2)], true) ∧
    List.count ((1 : ℤ), (2 : ℤ))
      [((1 : ℤ), (1 : ℤ)), (1, 2), (1, 3), (1, 2)] = 2 :=
  ⟨rfl, by decide⟩

/-- Witness for C9 at a concrete input with two waypoints and no
obstacles. -/
theorem c9_concatenation_witness :
    (∀ s ∈ PF.segments [(1, 1), (1, 3)] [] 5 5, s ≠ []) ∧
    PF.find_path [(1, 1), (1, 3)] [] 5 5 =
      ((PF.segments [(1, 1), (1, 3)] [] 5 5).headD [] ++
        ((PF.segments [(1, 1), (1, 3)] [] 5 5).tail.map List.tail).flatten,
        true) :=
  ⟨by decide, c9_concatenation [(1, 1), (1, 3)] [] 5 5 (by decide)⟩

/-- C10: for every waypoint list with fewer than 2 waypoints, the pair loop
of both find_path variants runs zero times: APCSP_pathfinder.py's find_path
returns the empty list and pathfinder.py's find_path returns the empty path
paired with the completion flag true. -/
theorem c10_short_waypoints (w obstacles : List Cell) (N M : ℤ)
    (h : w.length < 2) :
    APCSP.find_path w obstacles N M = [] ∧
    PF.find_path w obstacles N M = ([], true) := by
  match w with
  | [] => exact ⟨rfl, rfl⟩
  | [a] => exact ⟨rfl, rfl⟩
  | a :: b :: rest => simp at h; omega

/-- Witness for C10 at a concrete single-waypoint input. -/
theorem c10_short_waypoints_witness :
    ([((1 : ℤ), (1 : ℤ))].length < 2) ∧
    (APCSP.find_path [(1, 1)] [] 5 5 = [] ∧
      PF.find_path [(1, 1)] [] 5 5 = ([], true)) :=
  ⟨by decide, c10_short_waypoints [(1, 1)] [] 5 5 (by decide)⟩

end Pathfinding
